import Mathlib

/-!
# Verification of the miratope symmetry-group engine and geometry support

Shallow embedding of `src/miratope-core/src/group/mod.rs` and
`src/src/geometry.rs`.  Matrix arithmetic is modelled exactly (over `ℚ`
where the source only uses field operations, over `ℝ` where it takes
square roots); lazy iterators over finite groups are modelled as lists,
and the one place where the source's IEEE semantics differ from field
semantics (division by an exactly-zero denominator) is modelled by an
explicit non-finite marker.
-/

namespace Miratope

/-! ## Pairwise-product generator (`group/pairs.rs`)

Modelled from the spec: the `pairs` module itself is not under `src/`
(only its caller `Group::direct_product` and the test `tests::pairs`
are).  The spec says the generator "produces the lazy sequence of
`f(a, b)` for every `a ∈ A` in outer position, `b ∈ B` in inner position
(row-major Cartesian order: all of `A` combined with `B[0]`, then all of
`A` combined with `B[1]`, …)". -/

/-- Modelled from the spec: `(A, B).into_pairs()` — all pairs `(a, b)`
with the first collection varying fastest: all of `A` paired with
`B[0]`, then all of `A` paired with `B[1]`, and so on. -/
def intoPairs {α β : Type} (A : List α) (B : List β) : List (α × β) :=
  B.flatMap fun b => A.map fun a => (a, b)

/-- Modelled from the spec: `(A, B).into_pairs().map(f)` — the pairwise
product combined by `f`, in the same row-major order. -/
def pairMap {α β γ : Type} (f : α → β → γ) (A : List α) (B : List β) : List γ :=
  (intoPairs A B).map fun p => f p.1 p.2

/-! ## Cyclic generator (`group/cyclic.rs`)

Modelled from the spec: the `cyclic` module is not under `src/` (only
its callers `Group::cyclic_gen` / `Group::cyclic` are).  The spec says
it "produces a lazy, in-general-infinite sequence `id, g, g·g, g·g·g, …`
by repeatedly combining the running product with `g`.  It does not
detect a return to identity — that is the caller's responsibility". -/

/-- Modelled from the spec: the element the cyclic generator emits at
position `n`.  Being a total function of `n` embeds the fact that the
stream never terminates on its own: it is defined past any return to
the identity, with no runtime check. -/
def cyclicSeq {M : Type} [Monoid M] (g : M) : ℕ → M
  | 0 => 1
  | n + 1 => cyclicSeq g n * g

/-! ## Matrix groups (`group/mod.rs`)

The source's `Group<I>` wraps an ambient dimension and a lazy iterator
of elements.  All groups the claims touch are finite, so the iterator is
embedded as the list of elements it yields, in yield order; `nalgebra`'s
exact matrix arithmetic (`determinant`, negation, identity) is modelled
over `ℚ`. -/

/-- A `dim × dim` real matrix (`geometry::Matrix<T>`), modelled exactly
over `ℚ`. -/
abbrev Mat (dim : ℕ) : Type := Matrix (Fin dim) (Fin dim) ℚ

/-- `Group<I>` for matrix element types: the ambient dimension together
with the sequence of elements the iterator yields. -/
structure MatGroup where
  dim : ℕ
  elements : List (Mat dim)

/-- `Group::rotations`: `self.sub(|el| el.determinant() > T::ZERO)` —
keeps exactly the elements with strictly positive determinant. -/
def rotations (G : MatGroup) : MatGroup :=
  ⟨G.dim, G.elements.filter fun el => decide (0 < el.det)⟩

/-- `Group::central_inv(dim)`: `Self::two(dim, -Matrix::identity(dim, dim))`,
i.e. the identity followed by `-I` (the source's `two` yields
`[T::id(dim), gen]` in that order).  The source asserts `dim >= 1`;
theorems about this constructor carry that hypothesis. -/
def centralInv (dim : ℕ) : MatGroup :=
  ⟨dim, [1, -(1 : Mat dim)]⟩

/-- `direct_sum(mat1, mat2)` from `group/mod.rs`: builds the
`(dim1 + dim2)`-dimensional matrix with `mat1` in the top-left block,
`mat2` in the bottom-right block, and zeros elsewhere, exactly following
the source's `Matrix::from_fn` branch structure. -/
def directSum {d1 d2 : ℕ} (mat1 : Mat d1) (mat2 : Mat d2) : Mat (d1 + d2) :=
  Matrix.of fun i j =>
    if h1 : (i : ℕ) < d1 then
      if h2 : (j : ℕ) < d1 then mat1 ⟨i, h1⟩ ⟨j, h2⟩ else 0
    else if h2 : d1 ≤ (j : ℕ) then
      mat2 ⟨(i : ℕ) - d1, by have := i.isLt; omega⟩
        ⟨(j : ℕ) - d1, by have := j.isLt; omega⟩
    else 0

/-- `Group::direct_product`: collects both groups and maps every pair
(in the pairwise-product order) to its direct sum; the ambient dimension
is `self.dim + g.dim`. -/
def directProduct (G H : MatGroup) : MatGroup :=
  ⟨G.dim + H.dim, pairMap directSum G.elements H.elements⟩

/-! ## Cached iterators (`Group::cache`)

A Rust iterator is a state `s : σ` with a step function
`next : σ → Option (item, rest)`.  `Group::cache` runs the wrapped
iterator to exhaustion (`collect::<Vec<_>>()`) and rewraps the vector as
a `vec::IntoIter`. -/

/-- Runs an iterator for at most `fuel` steps, collecting the items it
yields (a finite iterator is exhausted by any large enough `fuel`). -/
def runIter {α σ : Type} (next : σ → Option (α × σ)) : ℕ → σ → List α
  | 0, _ => []
  | n + 1, s =>
    match next s with
    | none => []
    | some (a, s') => a :: runIter next n s'

/-- The step function of `vec::IntoIter`: pops the front element of the
materialized vector. -/
def vecNext {α : Type} : List α → Option (α × List α)
  | [] => none
  | a :: t => some (a, t)

/-- `Group::cache`'s materialization step, `self.collect::<Vec<_>>()`:
the ordered list of all elements the underlying iterator yields.  The
cached group wraps this list as a `vec::IntoIter`, i.e. its iterator is
`vecNext` with this list as the initial state. -/
def cacheSeq {α σ : Type} (next : σ → Option (α × σ)) (fuel : ℕ) (s0 : σ) : List α :=
  runIter next fuel s0

/-! ## Coxeter-diagram parsing (`Group::parse`)

Modelled from the spec: the `gen_iter` and `cox::cd` modules that
implement `GenIter::parse` are not under `src/` (only the caller
`Group::parse` is).  The spec's grammar: "sequence of node markers
separated by branch labels (digits = reflection angle denominator
π/label; default label 3 when omitted between adjacent nodes), with `*c`
denoting a ring-closing branch"; outcomes: `Ok(Some(generator-set))` on
a parse with at least one node, `Ok(None)` for a valid empty diagram,
`Err(DiagramError)` for malformed input. -/

/-- Modelled from the spec: the typed failure of diagram parsing
("malformed Coxeter string — recoverable, surfaced to the caller as a
typed failure"). -/
inductive DiagramError where
  | unexpectedChar (c : Char)
  | trailingLabel
  | badNodeRef (c : Char)
deriving DecidableEq

/-- Modelled from the spec: the diagram scanner.  `count` is the number
of nodes read so far; `labelPending` records that a branch label was
read, so a node (or `*`-node-reference) must still follow.  Node
markers are letters `o`/`x`; digit runs are branch labels; `*` followed
by a lowercase letter is a ring-closing reference to an already-read
node. -/
def parseRun : List Char → ℕ → Bool → Except DiagramError ℕ
  | [], count, labelPending =>
    if labelPending then Except.error DiagramError.trailingLabel else Except.ok count
  | c :: cs, count, labelPending =>
    if c = 'o' ∨ c = 'x' then parseRun cs (count + 1) false
    else if c.isDigit then
      if count = 0 then Except.error (DiagramError.unexpectedChar c)
      else parseRun cs count true
    else if c = ' ' then parseRun cs count labelPending
    else if c = '*' then
      match cs with
      | [] => Except.error (DiagramError.badNodeRef c)
      | r :: cs' =>
        if ('a' ≤ r ∧ r ≤ 'z') ∧ r.toNat - 'a'.toNat < count then parseRun cs' count false
        else Except.error (DiagramError.badNodeRef r)
    else Except.error (DiagramError.unexpectedChar c)

/-- Modelled from the spec: `Group::parse` — wraps the scanned node
count into the documented outcome shape: `Ok(None)` for the rank-0
diagram, `Ok(Some(generators))` with one reflection generator per node
otherwise, `Err` on malformed input (no partial result accompanies an
error).  Generators are abstracted to their node indices, the
matrix-construction module (`cox`) not being under `src/`. -/
def parseDiagram (s : String) : Except DiagramError (Option (List ℕ)) :=
  (parseRun s.toList 0 false).map fun count =>
    if count = 0 then none else some (List.range count)

/-! ## Hypersphere reciprocation (`src/src/geometry.rs`)

`reciprocate_mut` only uses field operations, so it is modelled exactly
over `ℚ`. -/

/-- The comparison constant: `Float::EPS` (`const EPS: f64 = 1e-9` in
`main.rs`). -/
def EPS : ℚ := 1 / 1000000000

/-- A point in `d`-dimensional space (`geometry::Point`), over exact
rationals. -/
abbrev QPoint (d : ℕ) : Type := Fin d → ℚ

/-- `norm_squared`: the sum of squared coordinates. -/
def normSq {d : ℕ} (v : QPoint d) : ℚ := ∑ i, v i * v i

/-- `geometry::Hypersphere`: a center plus a signed squared radius. -/
structure Hypersphere (d : ℕ) where
  center : QPoint d
  squaredRadius : ℚ

/-- `Hypersphere::reciprocate_mut`: returns the `Result` paired with the
final value of the mutated point (the point itself, unmoved, when the
call fails).  Follows the source exactly: `q = p - center`,
`s = q.norm_squared()`, early `Err(())` when `s < EPS`, otherwise
`q = q / s * squared_radius + center` is written back into `p`. -/
def reciprocateMut {d : ℕ} (sph : Hypersphere d) (p : QPoint d) :
    Except Unit Unit × QPoint d :=
  let q := p - sph.center
  let s := normSq q
  if s < EPS then (Except.error (), p)
  else (Except.ok (), fun i => q i / s * sph.squaredRadius + sph.center i)

/-- `Hypersphere::reciprocate`: clones the point, calls
`reciprocate_mut`, and maps `Ok` to the mutated clone (`None` on
failure). -/
def reciprocate {d : ℕ} (sph : Hypersphere d) (p : QPoint d) : Option (QPoint d) :=
  match reciprocateMut sph p with
  | (Except.error _, _) => none
  | (Except.ok _, q) => some q

/-- Concrete unit hypersphere in 1 dimension, for evaluation. -/
def sphereEx : Hypersphere 1 :=
  ⟨fun _ => 0, 1⟩

/-- A point coincident with `sphereEx`'s center. -/
def pointEx0 : QPoint 1 := fun _ => 0

/-- A point away from `sphereEx`'s center. -/
def pointEx2 : QPoint 1 := fun _ => 2

/-! ## Subspaces and hyperplanes (`src/src/geometry.rs`)

`Subspace::add` normalizes with a square root, so this part is modelled
over `ℝ` (`EuclideanSpace`, so that Mathlib's dimension theory applies
to the ambient space). -/

/-- A point in `d`-dimensional space over `ℝ`. -/
abbrev RPoint (d : ℕ) : Type := EuclideanSpace ℝ (Fin d)

/-- Builds an `RPoint` from its coordinate function. -/
def mkPt {d : ℕ} (f : Fin d → ℝ) : RPoint d := f

/-- `nalgebra`'s `p.dot(q)`: the coordinatewise dot product. -/
def dot {d : ℕ} (p q : RPoint d) : ℝ := ∑ i, p i * q i

/-- `Float::EPS` as a real constant. -/
noncomputable def EPSR : ℝ := 1 / 1000000000

/-- `geometry::Subspace`: a basis of vectors plus an offset point. -/
structure Subspace (d : ℕ) where
  basis : List (RPoint d)
  offset : RPoint d

/-- `Subspace::new`: the trivial subspace through a point, with an empty
basis. -/
def Subspace.new {d : ℕ} (p : RPoint d) : Subspace d :=
  ⟨[], p⟩

/-- `Subspace::project`: `p' = p - offset`, then `q` starts at `offset`
and accumulates `b * p'.dot(b)` over the basis. -/
noncomputable def Subspace.project {d : ℕ} (S : Subspace d) (p : RPoint d) : RPoint d :=
  S.basis.foldl (fun q b => q + dot (p - S.offset) b • b) S.offset

/-- `Subspace::add`: the Gram–Schmidt-like step.  `v = p - project(p)`;
`normalize_mut` divides `v` by its norm and returns the former norm; the
normalized vector is pushed onto the basis (and returned) only when that
norm exceeds `EPS`. -/
noncomputable def Subspace.add {d : ℕ} (S : Subspace d) (p : RPoint d) :
    Subspace d × Option (RPoint d) :=
  let v := p - S.project p
  let n := Real.sqrt (dot v v)
  if EPSR < n then
    (⟨S.basis ++ [n⁻¹ • v], S.offset⟩, some (n⁻¹ • v))
  else
    (S, none)

/-- A sequence of `add` operations applied from a starting subspace (the
returned basis vectors are discarded, as in `from_point_refs`). -/
noncomputable def Subspace.addAll {d : ℕ} (S : Subspace d) (ps : List (RPoint d)) :
    Subspace d :=
  ps.foldl (fun s p => (s.add p).1) S

/-- The spec's invariant on a subspace basis: pairwise orthogonal unit
vectors. -/
def IsOrthonormalList {d : ℕ} (l : List (RPoint d)) : Prop :=
  (∀ u ∈ l, dot u u = 1) ∧ l.Pairwise fun u v => dot u v = 0

/-- `geometry::Hyperplane`: a subspace together with a normal vector. -/
structure Hyperplane (d : ℕ) where
  subspace : Subspace d
  normal : RPoint d

/-- `Hyperplane::distance`: the signed distance
`(p - project(p)).dot(normal)`. -/
noncomputable def Hyperplane.distance {d : ℕ} (H : Hyperplane d) (p : RPoint d) : ℝ :=
  dot (p - H.subspace.project p) H.normal

/-- `geometry::Segment`: a pair of endpoints. -/
structure Segment (d : ℕ) where
  p0 : RPoint d
  p1 : RPoint d

/-- `Segment::at`: `self.0 * t + self.1 * (1 - t)`. -/
noncomputable def Segment.at {d : ℕ} (l : Segment d) (t : ℝ) : RPoint d :=
  t • l.p0 + (1 - t) • l.p1

/-- The value of an `f64` computation: a finite real, or a non-finite
value (`±∞` or `NaN`). -/
inductive FVal where
  | finite (x : ℝ)
  | nonfinite

/-- IEEE 754 division of finite values, modelled exactly away from a
zero denominator: dividing by exactly `0.0` yields a non-finite value
(`±∞` for a nonzero numerator, `NaN` for `0.0 / 0.0`), and any
non-finite value fails the `(0.0..=1.0).contains` range check. -/
noncomputable def fdiv (a b : ℝ) : FVal :=
  if b = 0 then FVal.nonfinite else FVal.finite (a / b)

/-- `Hyperplane::intersect`: `t = d1 / (d1 - d0)`, then the point
`l.at(t)` is returned only when `t` passes the `(0.0..=1.0).contains`
range check — which a non-finite `t` never does. -/
noncomputable def Hyperplane.intersect {d : ℕ} (H : Hyperplane d) (l : Segment d) :
    Option (RPoint d) :=
  match fdiv (H.distance l.p1) (H.distance l.p1 - H.distance l.p0) with
  | FVal.nonfinite => none
  | FVal.finite t => if 0 ≤ t ∧ t ≤ 1 then some (l.at t) else none

/-- A concrete hyperplane in the plane: the vertical line `x = 0`
(basis `[(0, 1)]`, offset the origin, normal `(1, 0)`). -/
noncomputable def hyperplaneEx : Hyperplane 2 :=
  ⟨⟨[mkPt ![0, 1]], 0⟩, mkPt ![1, 0]⟩

/-- A concrete segment parallel to `hyperplaneEx`: from `(1, 0)` to
`(1, 5)`. -/
noncomputable def segmentEx : Segment 2 :=
  ⟨mkPt ![1, 0], mkPt ![1, 5]⟩

/-! ## Theorems -/

theorem pairMap_cons {α β γ : Type} (f : α → β → γ) (A : List α) (b : β) (B : List β) :
    pairMap f A (b :: B) = (A.map fun a => f a b) ++ pairMap f A B := by
  simp [pairMap, intoPairs, List.flatMap_cons, Function.comp_def]

theorem pairMap_length {α β γ : Type} (f : α → β → γ) (A : List α) (B : List β) :
    (pairMap f A B).length = A.length * B.length := by
  induction B with
  | nil => simp [pairMap, intoPairs]
  | cons b B ih =>
    rw [pairMap_cons]
    simp only [List.length_append, List.length_map, ih, List.length_cons]
    ring

theorem pairMap_getElem {α β γ : Type} (f : α → β → γ) (A : List α) :
    ∀ (B : List β) (i j : ℕ) (hi : i < A.length) (hj : j < B.length),
      (pairMap f A B)[j * A.length + i]? = some (f (A.get ⟨i, hi⟩) (B.get ⟨j, hj⟩)) := by
  intro B
  induction B with
  | nil => intro i j hi hj; exact absurd hj (Nat.not_lt_zero j)
  | cons b B ih =>
    intro i j hi hj
    rw [pairMap_cons]
    cases j with
    | zero =>
      rw [Nat.zero_mul, Nat.zero_add, List.getElem?_append, if_pos (by simpa using hi),
        List.getElem?_map, List.getElem?_eq_getElem hi]
      simp [List.get_eq_getElem]
    | succ j =>
      have hidx : (j + 1) * A.length + i = (A.map fun a => f a b).length + (j * A.length + i) := by
        simp [Nat.succ_mul]
        omega
      rw [hidx, List.getElem?_append_right (Nat.le_add_right _ _), Nat.add_sub_cancel_left]
      exact ih i j hi (Nat.lt_of_succ_lt_succ hj)

/-- C1: the pairwise-product generator on `[1, 2]` and `[3, 4]` with the
pairing function yields exactly `[(1,3), (2,3), (1,4), (2,4)]`; in
general, it enumerates `f(a, b)` in row-major Cartesian order with the
first collection varying fastest: the element at position
`j·|A| + i` is `f(A[i], B[j])`, and the output length is `|A|·|B|`. -/
theorem pairs_row_major :
    intoPairs [1, 2] [3, 4] = [(1, 3), (2, 3), (1, 4), (2, 4)] ∧
    ∀ (α β γ : Type) (f : α → β → γ) (A : List α) (B : List β),
      (pairMap f A B).length = A.length * B.length ∧
      ∀ (i j : ℕ) (hi : i < A.length) (hj : j < B.length),
        (pairMap f A B)[j * A.length + i]? = some (f (A.get ⟨i, hi⟩) (B.get ⟨j, hj⟩)) :=
  ⟨by decide, fun _ _ _ f A B => ⟨pairMap_length f A B, pairMap_getElem f A B⟩⟩

/-- Witness for C1: on `A = [1, 2]`, `B = [3, 4]`, position
`1·|A| + 1` holds `(A[1], B[1]) = (2, 4)`. -/
theorem pairs_row_major_witness :
    (pairMap Prod.mk [1, 2] [3, 4])[1 * 2 + 1]? = some (2, 4) :=
  ((pairs_row_major.2 ℕ ℕ (ℕ × ℕ) Prod.mk [1, 2] [3, 4]).2 1 1 (by decide)
    (by decide)).trans (by decide)

/-- C2: the cyclic generator starts at the identity and repeatedly
combines the running product with `g`, so its `n`-th element is `g^n`;
it performs no identity check — the sequence is a total stream, and in
particular it keeps producing (periodically) after any return to the
identity `g^k = 1`, finiteness being entirely the caller's concern. -/
theorem cyclic_no_identity_check {M : Type} [Monoid M] (g : M) :
    cyclicSeq g 0 = 1 ∧
    (∀ n, cyclicSeq g (n + 1) = cyclicSeq g n * g) ∧
    (∀ n, cyclicSeq g n = g ^ n) ∧
    ∀ k m, g ^ k = 1 → cyclicSeq g (k + m) = cyclicSeq g m := by
  have hpow : ∀ n, cyclicSeq g n = g ^ n := by
    intro n
    induction n with
    | zero => simp [cyclicSeq]
    | succ n ih => rw [cyclicSeq, ih, pow_succ]
  refine ⟨rfl, fun n => rfl, hpow, fun k m hk => ?_⟩
  rw [hpow, hpow, add_comm, pow_add, hk, mul_one]

/-- Witness for C2: in the multiplicative monoid of `ZMod 4`, `g = 3`
satisfies `g^2 = 1`, yet the generator is still defined past the return
to identity: `cyclicSeq 3 (2 + 1) = cyclicSeq 3 1`. -/
theorem cyclic_no_identity_check_witness :
    (3 : ZMod 4) ^ 2 = 1 ∧
    cyclicSeq (3 : ZMod 4) (2 + 1) = cyclicSeq (3 : ZMod 4) 1 :=
  ⟨by decide, (cyclic_no_identity_check (3 : ZMod 4)).2.2.2 2 1 (by decide)⟩

theorem runIter_vecNext {α : Type} :
    ∀ (l : List α) (n : ℕ), l.length ≤ n → runIter vecNext n l = l := by
  intro l
  induction l with
  | nil => intro n _; cases n <;> simp [runIter, vecNext]
  | cons a t ih =>
    intro n hn
    cases n with
    | zero => simp at hn
    | succ m =>
      rw [runIter, vecNext]
      simp only [List.cons.injEq, true_and]
      exact ih m (by simpa using hn)

/-- C7: replaying a cached group reproduces exactly the materialized
element sequence — any two iterations of the cached group (each with
enough pulls to exhaust it) yield the identical sequence, with the same
values in the same order. -/
theorem cache_replay {α σ : Type} (next : σ → Option (α × σ)) (s0 : σ) (fuel n1 n2 : ℕ)
    (h1 : (cacheSeq next fuel s0).length ≤ n1)
    (h2 : (cacheSeq next fuel s0).length ≤ n2) :
    runIter vecNext n1 (cacheSeq next fuel s0) = cacheSeq next fuel s0 ∧
    runIter vecNext n2 (cacheSeq next fuel s0) = cacheSeq next fuel s0 :=
  ⟨runIter_vecNext _ n1 h1, runIter_vecNext _ n2 h2⟩

/-- Witness for C7: caching the three-element vector iterator and
replaying it twice (with different pull counts, both sufficient) yields
the same sequence both times. -/
theorem cache_replay_witness :
    runIter vecNext 3 (cacheSeq vecNext 5 [1, 2, 3]) = cacheSeq vecNext 5 [1, 2, 3] ∧
    runIter vecNext 7 (cacheSeq vecNext 5 [1, 2, 3]) = cacheSeq vecNext 5 [1, 2, 3] :=
  cache_replay vecNext ([1, 2, 3] : List ℕ) 5 3 7 (by decide) (by decide)

/-- C3: `Group::rotations` retains exactly the elements of the group
with strictly positive determinant (the orientation-preserving
subgroup), preserving the ambient dimension.  The source compares the
exact sign of the computed determinant (`el.determinant() > T::ZERO`,
with no epsilon): a value however close to zero is still classified
purely by its sign. -/
theorem rotations_mem_iff (G : MatGroup) :
    (rotations G).dim = G.dim ∧
    ∀ el : Mat G.dim, el ∈ (rotations G).elements ↔ el ∈ G.elements ∧ 0 < el.det := by
  refine ⟨rfl, fun el => ?_⟩
  simp [rotations, List.mem_filter]

theorem mem_pairMap {α β γ : Type} (f : α → β → γ) (A : List α) (B : List β) (c : γ) :
    c ∈ pairMap f A B ↔ ∃ a ∈ A, ∃ b ∈ B, c = f a b := by
  simp only [pairMap, intoPairs, List.mem_map, List.mem_flatMap]
  constructor
  · rintro ⟨p, ⟨b, hb, a, ha, rfl⟩, rfl⟩
    exact ⟨a, ha, b, hb, rfl⟩
  · rintro ⟨a, ha, b, hb, rfl⟩
    exact ⟨(a, b), ⟨b, hb, a, ha, rfl⟩, rfl⟩

/-- C4: `Group::direct_product` produces a group of ambient dimension
`d₁ + d₂` whose elements are exactly the direct sums of every pair
`(g, h)`; and `direct_sum` places `g` in the top-left `d₁×d₁` block,
`h` in the bottom-right `d₂×d₂` block, and zero in the two mixed
blocks. -/
theorem direct_product_spec :
    (∀ G H : MatGroup,
      (directProduct G H).dim = G.dim + H.dim ∧
      ∀ m : Mat (G.dim + H.dim),
        m ∈ (directProduct G H).elements ↔
          ∃ g ∈ G.elements, ∃ h ∈ H.elements, m = directSum g h) ∧
    ∀ (d1 d2 : ℕ) (g : Mat d1) (h : Mat d2) (i j : Fin (d1 + d2)),
      (∀ (hi : (i : ℕ) < d1) (hj : (j : ℕ) < d1),
        directSum g h i j = g ⟨i, hi⟩ ⟨j, hj⟩) ∧
      (∀ (hi : d1 ≤ (i : ℕ)) (hj : d1 ≤ (j : ℕ)),
        directSum g h i j =
          h ⟨(i : ℕ) - d1, by have := i.isLt; omega⟩
            ⟨(j : ℕ) - d1, by have := j.isLt; omega⟩) ∧
      ((i : ℕ) < d1 → d1 ≤ (j : ℕ) → directSum g h i j = 0) ∧
      (d1 ≤ (i : ℕ) → (j : ℕ) < d1 → directSum g h i j = 0) := by
  constructor
  · intro G H
    exact ⟨rfl, fun m => mem_pairMap directSum G.elements H.elements m⟩
  · intro d1 d2 g h i j
    refine ⟨fun hi hj => ?_, fun hi hj => ?_, fun hi hj => ?_, fun hi hj => ?_⟩
    · show dite _ _ _ = _
      rw [dif_pos hi, dif_pos hj]
    · show dite _ _ _ = _
      rw [dif_neg (by omega), dif_pos hj]
    · show dite _ _ _ = _
      rw [dif_pos hi, dif_neg (by omega)]
    · show dite _ _ _ = _
      rw [dif_neg (by omega), dif_neg (by omega)]

/-- Witness for C4: for the 1×1 matrices `[2]` and `[3]`, the direct
sum has `2` top-left, `3` bottom-right, and `0` in a mixed block. -/
theorem direct_product_spec_witness :
    directSum (!![2] : Mat 1) (!![3] : Mat 1) (0 : Fin 2) (0 : Fin 2) = 2 ∧
    directSum (!![2] : Mat 1) (!![3] : Mat 1) (1 : Fin 2) (1 : Fin 2) = 3 ∧
    directSum (!![2] : Mat 1) (!![3] : Mat 1) (0 : Fin 2) (1 : Fin 2) = 0 :=
  ⟨((direct_product_spec.2 1 1 !![2] !![3] 0 0).1 (by decide) (by decide)).trans (by decide),
   ((direct_product_spec.2 1 1 !![2] !![3] 1 1).2.1 (by decide) (by decide)).trans (by decide),
   (direct_product_spec.2 1 1 !![2] !![3] 0 1).2.2.1 (by decide) (by decide)⟩

/-- C5: for `n ≥ 1`, the central-inversion group `{I, -I}` of dimension
`n` has exactly 2 (distinct) elements, `-I` has determinant `(-1)^n`,
and the rotation subgroup has 1 element when `n` is odd and 2 when `n`
is even. -/
theorem central_inv_orders (n : ℕ) (hn : 1 ≤ n) :
    (centralInv n).elements.length = 2 ∧
    (1 : Mat n) ≠ -(1 : Mat n) ∧
    Matrix.det (-(1 : Mat n)) = (-1) ^ n ∧
    (rotations (centralInv n)).elements.length = if n % 2 = 1 then 1 else 2 := by
  have hdet : Matrix.det (-(1 : Mat n)) = (-1) ^ n := by
    rw [Matrix.det_neg, Matrix.det_one, mul_one, Fintype.card_fin]
  have h1 : (decide (0 < (1 : Mat n).det)) = true := by
    rw [decide_eq_true_eq, Matrix.det_one]
    norm_num
  have hfil : (rotations (centralInv n)).elements =
      List.filter (fun el => decide (0 < el.det)) [1, -(1 : Mat n)] := rfl
  refine ⟨rfl, ?_, hdet, ?_⟩
  · intro hcontra
    have hii := congrFun (congrFun hcontra ⟨0, hn⟩) ⟨0, hn⟩
    rw [Matrix.neg_apply, Matrix.one_apply_eq] at hii
    norm_num at hii
  · rcases Nat.even_or_odd n with he | ho
    · have hpos : (0 : ℚ) < (-(1 : Mat n)).det := by
        rw [hdet, he.neg_one_pow]
        norm_num
      have h2 : (decide (0 < (-(1 : Mat n)).det)) = true := by
        rw [decide_eq_true_eq]
        exact hpos
      have hmod : ¬ n % 2 = 1 := by
        rw [Nat.even_iff] at he
        omega
      rw [hfil, @List.filter_cons_of_pos (Mat n) (fun el => decide (0 < el.det)) 1
          [-(1 : Mat n)] h1,
        @List.filter_cons_of_pos (Mat n) (fun el => decide (0 < el.det)) (-(1 : Mat n)) [] h2,
        List.filter_nil, if_neg hmod]
      rfl
    · have hneg : ¬ (0 : ℚ) < (-(1 : Mat n)).det := by
        rw [hdet, ho.neg_one_pow]
        norm_num
      have h2 : ¬ (decide (0 < (-(1 : Mat n)).det)) = true := by
        rw [decide_eq_true_eq]
        exact hneg
      have hmod : n % 2 = 1 := Nat.odd_iff.mp ho
      rw [hfil, @List.filter_cons_of_pos (Mat n) (fun el => decide (0 < el.det)) 1
          [-(1 : Mat n)] h1,
        @List.filter_cons_of_neg (Mat n) (fun el => decide (0 < el.det)) (-(1 : Mat n)) [] h2,
        List.filter_nil, if_pos hmod]
      rfl

/-- Witness for C5: at `n = 3` the central-inversion group has 2
elements and a rotation subgroup of `if 3 % 2 = 1 then 1 else 2 = 1`
element. -/
theorem central_inv_orders_witness :
    (1 : ℕ) ≤ 3 ∧
    ((centralInv 3).elements.length = 2 ∧
     (1 : Mat 3) ≠ -(1 : Mat 3) ∧
     Matrix.det (-(1 : Mat 3)) = (-1) ^ 3 ∧
     (rotations (centralInv 3)).elements.length = if 3 % 2 = 1 then 1 else 2) :=
  ⟨by decide, central_inv_orders 3 (by decide)⟩

/-- C6: parsing a diagram string has exactly three outcomes —
`Ok(Some(gens))` with a nonempty generator set (at least one node),
`Ok(None)` for the syntactically valid empty diagram, or
`Err(DiagramError)`, with no partial result on failure; concretely, the
empty string is the rank-0 diagram, `"o5o3o"` parses to 3 generators,
the ring-closing `"o3o3o3o3o *c3o"` parses to 6 generators, and the
malformed `"5o"` (a branch label before any node) is a typed error. -/
theorem parse_trichotomy :
    (∀ s : String,
      parseDiagram s = Except.ok none ∨
      (∃ gens, parseDiagram s = Except.ok (some gens) ∧ gens ≠ []) ∨
      (∃ e, parseDiagram s = Except.error e)) ∧
    parseDiagram "" = Except.ok none ∧
    parseDiagram "o5o3o" = Except.ok (some [0, 1, 2]) ∧
    parseDiagram "o3o3o3o3o *c3o" = Except.ok (some [0, 1, 2, 3, 4, 5]) ∧
    parseDiagram "5o" = Except.error (DiagramError.unexpectedChar '5') := by
  refine ⟨?_, by rfl, by rfl, by rfl, by rfl⟩
  intro s
  cases hr : parseRun s.data 0 false with
  | error e => exact Or.inr (Or.inr ⟨e, by simp [parseDiagram, String.toList, Except.map, hr]⟩)
  | ok count =>
    by_cases hc : count = 0
    · exact Or.inl (by simp [parseDiagram, String.toList, Except.map, hr, hc])
    · exact Or.inr (Or.inl ⟨List.range count, by simp [parseDiagram, String.toList, Except.map, hr, hc], by
        simpa using hc⟩)

/-- C8: reciprocating a point whose squared distance to the
hypersphere's center is below `EPS` fails recoverably —
`reciprocate_mut` returns `Err(())` with the point unmoved and
`reciprocate` returns `None`; for every other point both succeed, with
the documented rescaled result. -/
theorem reciprocate_center (d : ℕ) (sph : Hypersphere d) (p : QPoint d) :
    (normSq (p - sph.center) < EPS →
      reciprocateMut sph p = (Except.error (), p) ∧ reciprocate sph p = none) ∧
    (¬ normSq (p - sph.center) < EPS →
      reciprocateMut sph p =
        (Except.ok (), fun i => (p - sph.center) i / normSq (p - sph.center) *
          sph.squaredRadius + sph.center i) ∧
      reciprocate sph p =
        some (fun i => (p - sph.center) i / normSq (p - sph.center) *
          sph.squaredRadius + sph.center i)) := by
  constructor
  · intro h
    refine ⟨?_, ?_⟩
    · simp [reciprocateMut, h]
    · simp [reciprocate, reciprocateMut, h]
  · intro h
    refine ⟨?_, ?_⟩
    · simp [reciprocateMut, h]
    · simp [reciprocate, reciprocateMut, h]

/-- Witness for C8: on the unit hypersphere centered at the origin of
the line, the origin itself fails to reciprocate (and is left unmoved),
while the point `2` reciprocates successfully. -/
theorem reciprocate_center_witness :
    (normSq (pointEx0 - sphereEx.center) < EPS ∧
      reciprocateMut sphereEx pointEx0 = (Except.error (), pointEx0) ∧
      reciprocate sphereEx pointEx0 = none) ∧
    (¬ normSq (pointEx2 - sphereEx.center) < EPS ∧
      reciprocate sphereEx pointEx2 =
        some (fun i => (pointEx2 - sphereEx.center) i / normSq (pointEx2 - sphereEx.center) *
          sphereEx.squaredRadius + sphereEx.center i)) := by
  have h0 : normSq (pointEx0 - sphereEx.center) < EPS := by
    norm_num [normSq, pointEx0, sphereEx, EPS, Fin.sum_univ_one, Pi.sub_apply]
  have h2 : ¬ normSq (pointEx2 - sphereEx.center) < EPS := by
    norm_num [normSq, pointEx2, sphereEx, EPS, Fin.sum_univ_one, Pi.sub_apply]
  exact ⟨⟨h0, (reciprocate_center 1 sphereEx pointEx0).1 h0⟩,
    ⟨h2, ((reciprocate_center 1 sphereEx pointEx2).2 h2).2⟩⟩

/-- C10: when a segment's two endpoints have the same signed distance
to a hyperplane (a parallel segment, or one inside the hyperplane), the
interpolation parameter `t = d1 / (d1 - d0)` is computed with an
exactly-zero denominator; the resulting non-finite value fails the
`0 ≤ t ≤ 1` range check, and `intersect` returns `None` without
faulting. -/
theorem intersect_parallel_none (d : ℕ) (H : Hyperplane d) (l : Segment d)
    (h : H.distance l.p0 = H.distance l.p1) :
    H.intersect l = none := by
  simp [Hyperplane.intersect, fdiv, h]

/-- Witness for C10: the segment from `(1, 0)` to `(1, 5)` is parallel
to the hyperplane `x = 0` (both endpoints at signed distance `1`), and
intersecting returns `None`. -/
theorem intersect_parallel_none_witness :
    hyperplaneEx.distance segmentEx.p0 = hyperplaneEx.distance segmentEx.p1 ∧
    hyperplaneEx.intersect segmentEx = none := by
  have hd : hyperplaneEx.distance segmentEx.p0 = hyperplaneEx.distance segmentEx.p1 := by
    simp only [Hyperplane.distance, hyperplaneEx, segmentEx, Subspace.project, dot, mkPt,
      List.foldl_cons, List.foldl_nil, Fin.sum_univ_two, PiLp.sub_apply, PiLp.add_apply,
      PiLp.smul_apply, PiLp.zero_apply, Matrix.cons_val_zero, Matrix.cons_val_one,
      Matrix.head_cons, smul_eq_mul]
    norm_num
  exact ⟨hd, intersect_parallel_none 2 hyperplaneEx segmentEx hd⟩

theorem dot_comm {d : ℕ} (x y : RPoint d) : dot x y = dot y x := by
  unfold dot
  exact Finset.sum_congr rfl fun i _ => mul_comm _ _

theorem dot_add_left {d : ℕ} (x y b : RPoint d) : dot (x + y) b = dot x b + dot y b := by
  unfold dot
  rw [← Finset.sum_add_distrib]
  exact Finset.sum_congr rfl fun i _ => by rw [PiLp.add_apply, add_mul]

theorem dot_sub_left {d : ℕ} (x y b : RPoint d) : dot (x - y) b = dot x b - dot y b := by
  unfold dot
  rw [← Finset.sum_sub_distrib]
  exact Finset.sum_congr rfl fun i _ => by rw [PiLp.sub_apply, sub_mul]

theorem dot_smul_left {d : ℕ} (a : ℝ) (x y : RPoint d) : dot (a • x) y = a * dot x y := by
  unfold dot
  rw [Finset.mul_sum]
  exact Finset.sum_congr rfl fun i _ => by rw [PiLp.smul_apply, smul_eq_mul, mul_assoc]

theorem dot_smul_right {d : ℕ} (a : ℝ) (x y : RPoint d) : dot x (a • y) = a * dot x y := by
  rw [dot_comm, dot_smul_left, dot_comm]

theorem dot_zero_left {d : ℕ} (b : RPoint d) : dot 0 b = 0 := by
  unfold dot
  exact Finset.sum_eq_zero fun i _ => by rw [PiLp.zero_apply, zero_mul]

theorem dot_self_nonneg {d : ℕ} (v : RPoint d) : 0 ≤ dot v v :=
  Finset.sum_nonneg fun i _ => mul_self_nonneg (v i)

theorem dot_listSum {d : ℕ} (L : List (RPoint d)) (b : RPoint d) :
    dot L.sum b = (L.map fun w => dot w b).sum := by
  induction L with
  | nil => simpa using dot_zero_left b
  | cons w t ih => rw [List.sum_cons, dot_add_left, List.map_cons, List.sum_cons, ih]

theorem foldl_add_sum {d : ℕ} (g : RPoint d → RPoint d) :
    ∀ (l : List (RPoint d)) (q0 : RPoint d),
      l.foldl (fun q b => q + g b) q0 = q0 + (l.map g).sum := by
  intro l
  induction l with
  | nil => intro q0; simp
  | cons b t ih => intro q0; rw [List.foldl_cons, ih, List.map_cons, List.sum_cons, add_assoc]

theorem project_eq {d : ℕ} (S : Subspace d) (p : RPoint d) :
    S.project p = S.offset + (S.basis.map fun b => dot (p - S.offset) b • b).sum :=
  foldl_add_sum _ S.basis S.offset

theorem sum_dot_eq {d : ℕ} :
    ∀ l : List (RPoint d), IsOrthonormalList l → ∀ b ∈ l, ∀ p' : RPoint d,
      (l.map fun c => dot p' c * dot c b).sum = dot p' b := by
  intro l
  induction l with
  | nil => intro _ b hb; exact absurd hb (List.not_mem_nil b)
  | cons c t ih =>
    rintro ⟨hunit, hpairs⟩ b hb p'
    rw [List.pairwise_cons] at hpairs
    obtain ⟨hc, hpt⟩ := hpairs
    rcases List.mem_cons.mp hb with rfl | hbt
    · rw [List.map_cons, List.sum_cons, hunit b (List.mem_cons_self b t), mul_one]
      have hz : (t.map fun x => dot p' x * dot x b).sum = 0 := by
        apply List.sum_eq_zero
        intro y hy
        obtain ⟨x, hx, rfl⟩ := List.mem_map.mp hy
        rw [dot_comm x b, hc x hx, mul_zero]
      rw [hz, add_zero]
    · rw [List.map_cons, List.sum_cons, hc b hbt, mul_zero, zero_add]
      exact ih ⟨fun u hu => hunit u (List.mem_cons_of_mem c hu), hpt⟩ b hbt p'

theorem dot_residual_zero {d : ℕ} (S : Subspace d) (hON : IsOrthonormalList S.basis)
    (p : RPoint d) (b : RPoint d) (hb : b ∈ S.basis) :
    dot (p - S.project p) b = 0 := by
  rw [project_eq]
  have hsplit : p - (S.offset + (S.basis.map fun c => dot (p - S.offset) c • c).sum) =
      (p - S.offset) - (S.basis.map fun c => dot (p - S.offset) c • c).sum := by
    abel
  rw [hsplit, dot_sub_left, dot_listSum, List.map_map]
  have hcomp : ((fun w => dot w b) ∘ fun c => dot (p - S.offset) c • c) =
      fun c => dot (p - S.offset) c * dot c b :=
    funext fun c => dot_smul_left _ c b
  rw [hcomp, sum_dot_eq S.basis hON b hb (p - S.offset), sub_self]

theorem add_preserves_inv {d : ℕ} (S : Subspace d) (p : RPoint d)
    (hON : IsOrthonormalList S.basis) :
    IsOrthonormalList ((S.add p).1).basis := by
  have hv : ∀ b ∈ S.basis, dot (p - S.project p) b = 0 := fun b hb =>
    dot_residual_zero S hON p b hb
  simp only [Subspace.add]
  split
  next h =>
    have hEPS : (0 : ℝ) < EPSR := by norm_num [EPSR]
    have hn : 0 < Real.sqrt (dot (p - S.project p) (p - S.project p)) := lt_trans hEPS h
    have hnn : Real.sqrt (dot (p - S.project p) (p - S.project p)) ≠ 0 := ne_of_gt hn
    have hvv : dot (p - S.project p) (p - S.project p) =
        Real.sqrt (dot (p - S.project p) (p - S.project p)) *
          Real.sqrt (dot (p - S.project p) (p - S.project p)) :=
      (Real.mul_self_sqrt (dot_self_nonneg _)).symm
    constructor
    · intro u hu
      rcases List.mem_append.mp hu with h1 | h2
      · exact hON.1 u h1
      · have hu2 : u = (Real.sqrt (dot (p - S.project p) (p - S.project p)))⁻¹ •
            (p - S.project p) := by simpa using h2
        subst hu2
        rw [dot_smul_left, dot_smul_right, ← hvv.symm.trans rfl]
        rw [← mul_assoc]
        rw [hvv]
        field_simp
    · rw [List.pairwise_append]
      refine ⟨hON.2, List.pairwise_singleton _ _, ?_⟩
      intro a ha b' hb'
      have hb2 : b' = (Real.sqrt (dot (p - S.project p) (p - S.project p)))⁻¹ •
          (p - S.project p) := by simpa using hb'
      subst hb2
      rw [dot_smul_right, dot_comm a, hv a ha, mul_zero]
  next h => exact hON

theorem dot_eq_inner {d : ℕ} (x y : RPoint d) : dot x y = (inner x y : ℝ) := by
  rw [PiLp.inner_apply]
  unfold dot
  exact Finset.sum_congr rfl fun i _ => by
    rw [RCLike.inner_apply, starRingEnd_apply, star_trivial]

theorem orthonormal_length_le {d : ℕ} (l : List (RPoint d)) (h : IsOrthonormalList l) :
    l.length ≤ d := by
  have hON : Orthonormal ℝ fun i : Fin l.length => l.get i := by
    rw [orthonormal_iff_ite]
    intro i j
    by_cases hij : i = j
    · subst hij
      rw [if_pos rfl, ← dot_eq_inner]
      exact h.1 (l.get i) (List.get_mem l i i.isLt)
    · rw [if_neg hij, ← dot_eq_inner]
      rcases Ne.lt_or_lt hij with hlt | hgt
      · exact List.pairwise_iff_get.mp h.2 i j hlt
      · rw [dot_comm]
        exact List.pairwise_iff_get.mp h.2 j i hgt
  have hcard := hON.linearIndependent.fintype_card_le_finrank
  simpa [finrank_euclideanSpace_fin] using hcard

/-- C9: for every subspace built from an initial point (`Subspace::new`,
empty basis) and any sequence of `add` operations, the stored basis is
orthonormal — pairwise orthogonal unit vectors — and its rank (basis
length) is at most the ambient dimension. -/
theorem subspace_add_invariant {d : ℕ} (p0 : RPoint d) (ps : List (RPoint d)) :
    IsOrthonormalList ((Subspace.new p0).addAll ps).basis ∧
    ((Subspace.new p0).addAll ps).basis.length ≤ d := by
  have key : ∀ (qs : List (RPoint d)) (S : Subspace d), IsOrthonormalList S.basis →
      IsOrthonormalList (S.addAll qs).basis := by
    intro qs
    induction qs with
    | nil => intro S h; exact h
    | cons q t ih =>
      intro S h
      exact ih ((S.add q).1) (add_preserves_inv S q h)
  have hON : IsOrthonormalList ((Subspace.new p0).addAll ps).basis :=
    key ps (Subspace.new p0)
      ⟨fun u hu => absurd hu (List.not_mem_nil u), List.Pairwise.nil⟩
  exact ⟨hON, orthonormal_length_le _ hON⟩

end Miratope
